import Mathlib

/-!
Shallow embedding of the Radar_Interface acquisition/DSP pipeline
(`src/RF_app/models/sdr_model.py`, `src/RF_app/controllers/*.py`,
`src/old/main_3.py`) and proofs about it.

Complex float32 samples are modelled as `ℂ`, real float32 values as `ℝ`.
-/

open Real Complex

namespace RFApp

/-- A block of complex IQ samples (`np.complex64` array modelled as a list of `ℂ`). -/
abbrev Block := List ℂ

/-- The producer→consumer hand-off channel `SdrModel.rx_queue = queue.Queue()`:
an unbounded FIFO of blocks, oldest block at the head. -/
abbrev RxQueue := List Block

/-- `rx_queue.put(b)`: enqueue at the tail of the FIFO. -/
def rxQueuePut (q : RxQueue) (b : Block) : RxQueue := q ++ [b]

/-- `SdrModel.read_samples(num_samples)`: a non-blocking `get_nowait` on
`rx_queue` — returns `None` if the queue is empty, otherwise the oldest
block; the `num_samples` argument is not used by the body. The result is
paired with the queue left behind. -/
def read_samples (numSamples : ℕ) (q : RxQueue) : Option Block × RxQueue :=
  match q with
  | [] => (none, [])
  | b :: rest => (some b, rest)

/-- One iteration of the `SdrModel._rx_worker` loop body, `read_size = 1024`:
when `readStream` reports `status > 0` received samples, `rx_buff[:status]`
is copied and `put` on the queue; on `status = 0` or a negative status the
worker only sleeps/logs and the queue is untouched. -/
def rxWorkerIter (status : ℤ) (rxBuff : Block) (q : RxQueue) : RxQueue :=
  if 0 < status then rxQueuePut q (rxBuff.take status.toNat) else q

/-- The scroll-and-insert update shared by both controllers and by
`main_3.py`: `data[:-1, :] = data[1:, :]` followed by `data[-1, :] = row`.
Row `i` with `i + 1 < h` receives old row `i + 1`; the last row receives
`row`. -/
def pushRow (data : List (List ℝ)) (row : List ℝ) : List (List ℝ) :=
  (List.range data.length).map fun i =>
    if i + 1 = data.length then row else data.getD (i + 1) []

/-- Strided slicing `xs[::D]` — the decimation stage of
`CW_DopplerController._process_data` (`decimated = mixed[::self.decimation]`). -/
def decimate {α : Type*} (D : ℕ) : List α → List α
  | [] => []
  | x :: rest => x :: decimate D (rest.drop (D - 1))
termination_by xs => xs.length
decreasing_by simp [List.length_drop]; omega

/-- `np.fft.fft(a, n)` input conditioning: `a` is cropped or zero-padded to
length `n` before the transform. -/
def padTrunc (n : ℕ) (xs : List ℂ) : List ℂ :=
  xs.take n ++ List.replicate (n - xs.length) 0

/-- `np.hanning(M)`: the Hann window; numpy returns an empty array for
`M < 1`, the singleton `[1.0]` for `M = 1`, and otherwise the values
`0.5 - 0.5·cos(2πn/(M-1))` for `n = 0, …, M-1`. -/
noncomputable def hanning (M : ℕ) : List ℝ :=
  if M = 0 then []
  else if M = 1 then [1]
  else (List.range M).map fun n : ℕ => 1 / 2 - 1 / 2 * Real.cos (2 * π * (n : ℝ) / ((M : ℝ) - 1))

/-- The discrete Fourier transform computed by `np.fft.fft` on an input of
length `n` (after padding): `X[k] = Σ_j x[j]·e^{-2πi·jk/n}`. -/
noncomputable def dft (xs : List ℂ) : List ℂ :=
  (List.range xs.length).map fun k : ℕ =>
    ∑ j ∈ Finset.range xs.length,
      xs.getD j 0 * Complex.exp (-(2 * π * Complex.I * (j : ℂ) * (k : ℂ)) / (xs.length : ℂ))

/-- `np.fft.fft(a, n)`: crop or zero-pad `a` to length `n`, then transform. -/
noncomputable def npFFT (n : ℕ) (xs : List ℂ) : List ℂ := dft (padTrunc n xs)

/-- `np.fft.fftshift`: `np.roll(x, n // 2)`, moving the zero-frequency bin
to the centre; as a list operation, a left rotation by `n - n / 2`. -/
def fftshift {α : Type*} (xs : List α) : List α :=
  xs.rotate (xs.length - xs.length / 2)

/-- `np.mean(samples)` of a complex block. -/
noncomputable def meanBlock (xs : List ℂ) : ℂ := xs.sum / (xs.length : ℂ)

/-- The IIR DC-removal loop of `SpectrogramController._process_data`
(option B): for each index `i` in order, `new_block[i] = samples[i] - dc_state`
and then `dc_state = dc_alpha*dc_state + (1 - dc_alpha)*samples[i]`.
Returns the filtered block together with the final `dc_state`. -/
noncomputable def iirDcBlock (dcAlpha : ℝ) : ℂ → List ℂ → List ℂ × ℂ
  | dcState, [] => ([], dcState)
  | dcState, x :: rest =>
    let p := iirDcBlock dcAlpha ((dcAlpha : ℂ) * dcState + (1 - (dcAlpha : ℂ)) * x) rest
    ((x - dcState) :: p.1, p.2)

/-- The DC accumulator `s ← α·s + (1-α)·x` folded over a block. -/
noncomputable def iirState (dcAlpha : ℝ) (s : ℂ) (xs : List ℂ) : ℂ :=
  xs.foldl (fun a x => (dcAlpha : ℂ) * a + (1 - (dcAlpha : ℂ)) * x) s

/-- The software DC-removal section of `SpectrogramController._process_data`:
two independent sequential `if` statements — option A (block-mean
subtraction) runs when `mean_subtraction` is set, then option B (the IIR
loop) runs when `iir_dc_block` is set, applied to whatever option A left in
`samples`. Returns the resulting block and the new `dc_state`. -/
noncomputable def dcStage (meanSubtraction iirFlag : Bool) (dcAlpha : ℝ)
    (dcState : ℂ) (samples : List ℂ) : List ℂ × ℂ :=
  let samples1 :=
    if meanSubtraction then samples.map (fun x => x - meanBlock samples) else samples
  if iirFlag then iirDcBlock dcAlpha dcState samples1 else (samples1, dcState)

/-- `SpectrogramController._compute_power_spectrum`: Hann-window the block,
FFT at `fft_size` (crop/zero-pad), `fftshift`, then `20·log10(|X| + 1e-12)`. -/
noncomputable def compute_power_spectrum (fftSize : ℕ) (samples : List ℂ) : List ℝ :=
  let window := hanning samples.length
  let windowed := List.zipWith (fun (s : ℂ) (w : ℝ) => s * (w : ℂ)) samples window
  let spectrum := fftshift (npFFT fftSize windowed)
  spectrum.map fun z => 20 * Real.logb 10 (Complex.abs z + 1e-12)

/-- Configuration attributes of `SpectrogramController.__init__`
(`dc_alpha` is fixed to `0.99` there). -/
structure SpectrogramConfig where
  fftSize : ℕ
  history : ℕ
  meanSubtraction : Bool
  iirDcFlag : Bool
  dcAlpha : ℝ

/-- Mutable state of a `SpectrogramController`: the IIR accumulator
`dc_state` and the `history × fft_size` matrix `spectrogram_data`. -/
structure SpectrogramState where
  dcState : ℂ
  spectrogramData : List (List ℝ)

/-- The state set up by `SpectrogramController.__init__`: `dc_state = 0`
and an all-zero `(history, fft_size)` matrix. -/
noncomputable def spectrogramInit (history fftSize : ℕ) : SpectrogramState :=
  ⟨0, List.replicate history (List.replicate fftSize 0)⟩

/-- One `SpectrogramController._process_data` tick: read one block from the
model's queue; return unchanged on `None`/empty, else apply the DC stage,
compute the power-spectrum row and scroll it into the matrix. The result
carries the new controller state, the queue left behind, and the list of
rows produced by this tick. -/
noncomputable def spectrogramTick (cfg : SpectrogramConfig) (st : SpectrogramState)
    (q : RxQueue) : SpectrogramState × RxQueue × List (List ℝ) :=
  match read_samples cfg.fftSize q with
  | (none, q1) => (st, q1, [])
  | (some samples, q1) =>
    if samples.length = 0 then (st, q1, [])
    else
      let p := dcStage cfg.meanSubtraction cfg.iirDcFlag cfg.dcAlpha st.dcState samples
      let row := compute_power_spectrum cfg.fftSize p.1
      (⟨p.2, pushRow st.spectrogramData row⟩, q1, [row])

/-- Configuration of `CW_DopplerController.__init__`; `decimation` is
derived there as `int(raw_sample_rate / 2000.0)` clamped to at least 1. -/
structure CwConfig where
  rawSampleRate : ℝ
  cwFreqOffset : ℝ
  fftSize : ℕ
  history : ℕ
  decimation : ℕ

/-- One `CW_DopplerController._process_data` tick: read one block
(`block_size = 4096` is passed but ignored by `read_samples`), mix with
`e^{-j·2π·f_offset·t}`, decimate by stride, skip the tick if fewer than
`fft_size` decimated samples remain, else take the first `fft_size`
samples, subtract the block mean, Hann-window, FFT, shift, convert to dB
and scroll the row into the matrix. -/
noncomputable def cwTick (cfg : CwConfig) (data : List (List ℝ)) (q : RxQueue) :
    List (List ℝ) × RxQueue × List (List ℝ) :=
  match read_samples 4096 q with
  | (none, q1) => (data, q1, [])
  | (some samples, q1) =>
    if samples.length = 0 then (data, q1, [])
    else
      let t := (List.range samples.length).map fun n : ℕ => (n : ℝ) / cfg.rawSampleRate
      let mixed := List.zipWith
        (fun (s : ℂ) (tn : ℝ) =>
          s * Complex.exp (-Complex.I * ((2 * π * cfg.cwFreqOffset * tn : ℝ) : ℂ)))
        samples t
      let decimated := decimate cfg.decimation mixed
      if decimated.length < cfg.fftSize then (data, q1, [])
      else
        let dataBlock0 := decimated.take cfg.fftSize
        let dataBlock := dataBlock0.map fun x => x - meanBlock dataBlock0
        let window := hanning dataBlock.length
        let windowed := List.zipWith (fun (s : ℂ) (w : ℝ) => s * (w : ℂ)) dataBlock window
        let spectrum := fftshift (npFFT cfg.fftSize windowed)
        let row := spectrum.map fun z => 20 * Real.logb 10 (Complex.abs z + 1e-12)
        (pushRow data row, q1, [row])

/-- One synthesized block of `SdrModel._tx_worker`:
`wave[n] = exp(j·(2π·tone_freq·t[n] + phase_acc))` with `t[n] = n·T`. -/
noncomputable def txWave (toneFreq samplePeriod phaseAcc : ℝ) (txSize : ℕ) : List ℂ :=
  (List.range txSize).map fun n : ℕ =>
    Complex.exp (Complex.I * ((2 * π * toneFreq * ((n : ℝ) * samplePeriod) + phaseAcc) : ℝ))

/-- Python float `%` (result takes the divisor's sign): `x % y = x - y·⌊x/y⌋`. -/
noncomputable def pyFmod (x y : ℝ) : ℝ := x - y * ⌊x / y⌋

/-- The `_tx_worker` phase update:
`phase_acc = (phase_acc + 2π·tone_freq·tx_size·sample_period) % (2π)`. -/
noncomputable def txPhaseNext (toneFreq samplePeriod : ℝ) (txSize : ℕ) (phaseAcc : ℝ) : ℝ :=
  pyFmod (phaseAcc + 2 * π * toneFreq * txSize * samplePeriod) (2 * π)

/-- The phase accumulator before the `k`-th synthesized block
(`phase_acc = 0.0` before the loop). -/
noncomputable def txPhaseAcc (toneFreq samplePeriod : ℝ) (txSize : ℕ) : ℕ → ℝ
  | 0 => 0
  | k + 1 => txPhaseNext toneFreq samplePeriod txSize (txPhaseAcc toneFreq samplePeriod txSize k)

/-- Bounds-guarded indexing into a block at a signed index: zero outside. -/
noncomputable def getZ (xs : List ℂ) (i : ℤ) : ℂ :=
  if 0 ≤ i ∧ i < (xs.length : ℤ) then xs.getD i.toNat 0 else 0

/-- `np.correlate(a, v, mode='full')`: output index `m` (with
`0 ≤ m ≤ len a + len v − 2`) holds `Σ_j a[m + j − (len v − 1)]·conj(v[j])`,
out-of-range terms contributing zero. -/
noncomputable def correlateFull (a v : List ℂ) : List ℂ :=
  (List.range (a.length + v.length - 1)).map fun m : ℕ =>
    ∑ j ∈ Finset.range v.length,
      getZ a ((m : ℤ) + (j : ℤ) - ((v.length : ℤ) - 1)) * (starRingEnd ℂ) (v.getD j 0)

/-- The correlation row built by `BladeRFRadarHeatmap.radar_update`
(`src/old/main_3.py`): correlation magnitude, then zero-padded
(`row_data[:len] = corr_mag`) or cropped (`corr_mag[:corr_len]`) to the
fixed width `corr_len`. -/
noncomputable def radar_update_row (corrLen : ℕ) (rxSamples pulse : List ℂ) : List ℝ :=
  let corrMag := (correlateFull rxSamples pulse).map Complex.abs
  if corrMag.length < corrLen then corrMag ++ List.replicate (corrLen - corrMag.length) 0
  else corrMag.take corrLen

/- ### Basic lemmas -/

theorem map_getD_range {α : Type*} (l : List α) (d : α) :
    (List.range l.length).map (fun i => l.getD i d) = l := by
  induction l with
  | nil => rfl
  | cons x xs ih =>
    have hcomp : ((fun i => (x :: xs).getD i d) ∘ Nat.succ) = fun i => xs.getD i d := by
      funext i; rfl
    rw [List.length_cons, List.range_succ_eq_map, List.map_cons, List.map_map, hcomp, ih]
    rfl

theorem pushRow_eq_drop (data : List (List ℝ)) (row : List ℝ) (h : data ≠ []) :
    pushRow data row = data.drop 1 ++ [row] := by
  obtain ⟨x, xs, rfl⟩ := List.exists_cons_of_ne_nil h
  unfold pushRow
  rw [List.length_cons, List.range_succ, List.map_append, List.map_singleton,
    if_pos rfl]
  have hmap : (List.range xs.length).map
      (fun i => if i + 1 = xs.length + 1 then row else (x :: xs).getD (i + 1) []) =
      (List.range xs.length).map (fun i => xs.getD i []) := by
    apply List.map_congr_left
    intro i hi
    have hlt : i < xs.length := List.mem_range.mp hi
    rw [if_neg (by omega)]
    rfl
  rw [hmap, map_getD_range, List.drop_one, List.tail_cons]

theorem length_pushRow (data : List (List ℝ)) (row : List ℝ) :
    (pushRow data row).length = data.length := by
  simp [pushRow]

theorem length_padTrunc (n : ℕ) (xs : List ℂ) :
    (padTrunc n xs).length = n := by
  simp [padTrunc]
  omega

theorem decimate_length {α : Type*} (D : ℕ) (hD : 1 ≤ D) :
    ∀ xs : List α, (decimate D xs).length = (xs.length + D - 1) / D := by
  intro xs
  induction xs using decimate.induct D with
  | case1 =>
    simp only [decimate, List.length_nil, Nat.zero_add]
    exact (Nat.div_eq_of_lt (by omega)).symm
  | case2 x rest ih =>
    rw [decimate, List.length_cons, ih, List.length_drop, List.length_cons]
    rcases le_or_lt (D - 1) rest.length with hle | hlt
    · have h1 : rest.length - (D - 1) + D - 1 = rest.length := by omega
      have h2 : rest.length + 1 + D - 1 = rest.length + D := by omega
      rw [h1, h2, Nat.add_div_right _ (by omega), Nat.add_comm]
    · have h1 : rest.length - (D - 1) = 0 := by omega
      have h2 : rest.length + 1 + D - 1 = rest.length + D := by omega
      rw [h1, h2]
      have h3 : (0 + D - 1) / D = 0 := Nat.div_eq_of_lt (by omega)
      have h4 : (rest.length + D) / D = 1 := by
        rw [Nat.add_div_right _ (by omega), Nat.div_eq_of_lt (by omega)]
      rw [h3, h4]

theorem decimate_get? {α : Type*} (D : ℕ) (hD : 1 ≤ D) :
    ∀ (xs : List α) (k : ℕ), (decimate D xs).get? k = xs.get? (k * D) := by
  intro xs
  induction xs using decimate.induct D with
  | case1 =>
    intro k
    rw [decimate]
    simp
  | case2 x rest ih =>
    intro k
    match k with
    | 0 =>
      rw [decimate]
      simp
    | k + 1 =>
      have hs : (k + 1) * D = (D - 1 + k * D) + 1 := by
        rw [Nat.succ_mul]
        omega
      rw [decimate, List.get?_cons_succ, ih k, List.get?_drop, hs, List.get?_cons_succ]

theorem length_dft (xs : List ℂ) : (dft xs).length = xs.length := by
  simp only [dft, List.length_map, List.length_range]

theorem length_npFFT (n : ℕ) (xs : List ℂ) : (npFFT n xs).length = n := by
  rw [npFFT, length_dft, length_padTrunc]

theorem length_fftshift {α : Type*} (xs : List α) : (fftshift xs).length = xs.length := by
  simp [fftshift]

theorem foldl_pushRow_length (m : List (List ℝ)) (rs : List (List ℝ)) :
    (rs.foldl pushRow m).length = m.length := by
  induction rs generalizing m with
  | nil => rfl
  | cons r rs ih => rw [List.foldl_cons, ih, length_pushRow]

theorem foldl_rxQueuePut (q : RxQueue) (bs : List Block) :
    bs.foldl rxQueuePut q = q ++ bs := by
  induction bs generalizing q with
  | nil => simp
  | cons b bs ih => simp [rxQueuePut, ih]

theorem iirDcBlock_snd (dcAlpha : ℝ) (xs : List ℂ) :
    ∀ s : ℂ, (iirDcBlock dcAlpha s xs).2 = iirState dcAlpha s xs := by
  induction xs with
  | nil => intro s; rfl
  | cons x rest ih =>
    intro s
    simp only [iirDcBlock]
    exact ih _

theorem iirDcBlock_fst_getD (dcAlpha : ℝ) (xs : List ℂ) :
    ∀ (s : ℂ) (n : ℕ), n < xs.length →
      (iirDcBlock dcAlpha s xs).1.getD n 0
        = xs.getD n 0 - iirState dcAlpha s (xs.take n) := by
  induction xs with
  | nil =>
    intro s n h
    simp at h
  | cons x rest ih =>
    intro s n h
    match n with
    | 0 => simp [iirDcBlock, iirState]
    | n + 1 =>
      simp only [iirDcBlock, List.getD_cons_succ, List.take_succ_cons]
      rw [ih _ n (by simpa using h)]
      rfl

theorem iirDcBlock_append (dcAlpha : ℝ) (xs ys : List ℂ) :
    ∀ s : ℂ, (iirDcBlock dcAlpha s (xs ++ ys)).1
      = (iirDcBlock dcAlpha s xs).1
        ++ (iirDcBlock dcAlpha (iirState dcAlpha s xs) ys).1 := by
  induction xs with
  | nil => intro s; rfl
  | cons x rest ih =>
    intro s
    simp only [List.cons_append, iirDcBlock, List.append_eq]
    rw [ih]
    rfl

theorem iirState_append (dcAlpha : ℝ) (s : ℂ) (xs ys : List ℂ) :
    iirState dcAlpha s (xs ++ ys) = iirState dcAlpha (iirState dcAlpha s xs) ys := by
  simp [iirState, List.foldl_append]

theorem txPhaseAcc_mod (toneFreq samplePeriod : ℝ) (txSize : ℕ) :
    ∀ k : ℕ, ∃ m : ℤ,
      txPhaseAcc toneFreq samplePeriod txSize k
        = 2 * π * toneFreq * (((k * txSize : ℕ) : ℝ) * samplePeriod) - m * (2 * π) := by
  intro k
  induction k with
  | zero =>
    refine ⟨0, ?_⟩
    show (0 : ℝ) = _
    push_cast
    ring
  | succ k ih =>
    obtain ⟨m, hm⟩ := ih
    refine ⟨m + ⌊(txPhaseAcc toneFreq samplePeriod txSize k
        + 2 * π * toneFreq * txSize * samplePeriod) / (2 * π)⌋, ?_⟩
    rw [txPhaseAcc, txPhaseNext, pyFmod, hm]
    push_cast
    ring

/- ### Claim theorems -/

/-- C1: pushing a row onto a full `history × bins` matrix removes the
oldest row (index 0), shifts every remaining row one slot toward the
oldest end and writes the new row at the last index; the shape
`(history, bins)` is unchanged, and stays unchanged under any sequence of
pushes. -/
theorem pushRow_fifo_spec (bins : ℕ) (m : List (List ℝ)) (r : List ℝ)
    (hm : m ≠ []) (hr : r.length = bins) (hrows : ∀ row ∈ m, row.length = bins) :
    pushRow m r = m.drop 1 ++ [r]
    ∧ (pushRow m r).length = m.length
    ∧ (∀ row ∈ pushRow m r, row.length = bins)
    ∧ ∀ rs : List (List ℝ), (rs.foldl pushRow m).length = m.length := by
  refine ⟨pushRow_eq_drop m r hm, length_pushRow m r, ?_, fun rs => foldl_pushRow_length m rs⟩
  intro row hrow
  rw [pushRow_eq_drop m r hm] at hrow
  rcases List.mem_append.mp hrow with h | h
  · exact hrows row (List.drop_subset 1 m h)
  · rw [List.mem_singleton.mp h]
    exact hr

theorem pushRow_fifo_spec_witness :
    ([[(5 : ℝ)], [6]] : List (List ℝ)) ≠ []
    ∧ pushRow [[(5 : ℝ)], [6]] [7] = [[(6 : ℝ)], [7]] := by
  have h := pushRow_fifo_spec 1 [[(5 : ℝ)], [6]] [7] (by simp) (by simp) (by simp)
  exact ⟨by simp, by rw [h.1]; rfl⟩

/-- C3 counterexample: the hand-off channel `rx_queue = queue.Queue()` is
unbounded and `put` never discards anything, so there is no capacity `N`
for which a push on a channel holding `N` blocks drops the oldest block,
nor one for which `N + 1` pushes with no pops leave only the `N` most
recent blocks. -/
theorem rx_queue_not_drop_oldest :
    ¬ ∃ N : ℕ,
      (∀ (q : RxQueue) (b : Block), q.length = N → rxQueuePut q b = q.drop 1 ++ [b])
      ∧ ∀ bs : List Block, bs.length = N + 1 → bs.foldl rxQueuePut [] = bs.drop 1 := by
  rintro ⟨N, -, h2⟩
  have h := h2 (List.replicate (N + 1) []) (by simp)
  rw [foldl_rxQueuePut] at h
  have hlen := congrArg List.length h
  simp at hlen

/-- C3 amended: the hand-off channel is an unbounded FIFO — a push always
appends the new block at the tail and never discards a block, so after any
sequence of pushes with no pops the channel holds every pushed block in
arrival order. -/
theorem rx_queue_unbounded_fifo (q : RxQueue) (b : Block) (bs : List Block) :
    rxQueuePut q b = q ++ [b]
    ∧ (rxQueuePut q b).length = q.length + 1
    ∧ bs.foldl rxQueuePut [] = bs := by
  refine ⟨rfl, by simp [rxQueuePut], ?_⟩
  rw [foldl_rxQueuePut, List.nil_append]

/-- C6: for every decimation factor `D ≥ 1` and input block `xs`, the
decimated block `xs[::D]` has length `⌈len xs / D⌉` and its `k`-th element
is the input's `k·D`-th element. -/
theorem decimation_invariant (D : ℕ) (hD : 1 ≤ D) (xs : List ℂ) :
    (decimate D xs).length = (xs.length + D - 1) / D
    ∧ ∀ k : ℕ, (decimate D xs).get? k = xs.get? (k * D) :=
  ⟨decimate_length D hD xs, fun k => decimate_get? D hD xs k⟩

theorem decimation_invariant_witness :
    (1 ≤ 3)
    ∧ (decimate 3 [(0 : ℂ), 1, 2, 3, 4, 5, 6]).length = 3
    ∧ (decimate 3 [(0 : ℂ), 1, 2, 3, 4, 5, 6]).get? 1 = some 3 := by
  refine ⟨by decide, ?_, ?_⟩
  · rw [(decimation_invariant 3 (by decide) [(0 : ℂ), 1, 2, 3, 4, 5, 6]).1]
    norm_num
  · rw [(decimation_invariant 3 (by decide) [(0 : ℂ), 1, 2, 3, 4, 5, 6]).2 1]
    rfl

/-- C7: every produced row has exactly the configured number of bins —
`_compute_power_spectrum` rows always have `fft_size` elements (the FFT
input is cropped or zero-padded to `fft_size`), and `radar_update`
correlation rows always have `corr_len` elements (the correlation
magnitude is zero-padded or cropped to `corr_len`), whatever the input
block lengths. -/
theorem row_width_invariant (fftSize corrLen : ℕ) (samples rxSamples pulse : List ℂ) :
    (compute_power_spectrum fftSize samples).length = fftSize
    ∧ (radar_update_row corrLen rxSamples pulse).length = corrLen := by
  constructor
  · simp only [compute_power_spectrum]
    rw [List.length_map, length_fftshift, length_npFFT]
  · simp only [radar_update_row]
    split
    · rename_i h
      simp only [List.length_append, List.length_replicate]
      simp at h ⊢
      omega
    · rename_i h
      simp only [List.length_take]
      simp at h ⊢
      omega

/-- C10: `SdrModel.read_samples(num_samples)` ignores `num_samples`
entirely — it returns `None` on an empty queue and otherwise the single
oldest queued block unmodified, whose length was fixed by the producer
(`_rx_worker` only enqueues `rx_buff[:status]` slices of its 1024-sample
buffer, so every enqueued block has at most 1024 samples). -/
theorem read_samples_ignores_count (n m : ℕ) (q : RxQueue) (b : Block)
    (status : ℤ) (rxBuff : Block) (hbuf : rxBuff.length = 1024) :
    read_samples n q = read_samples m q
    ∧ read_samples n (b :: q) = (some b, q)
    ∧ read_samples n [] = (none, [])
    ∧ ∀ blk ∈ rxWorkerIter status rxBuff q, blk ∈ q ∨ blk.length ≤ 1024 := by
  refine ⟨?_, rfl, rfl, ?_⟩
  · cases q <;> rfl
  · intro blk hblk
    unfold rxWorkerIter at hblk
    by_cases hs : 0 < status
    · rw [if_pos hs] at hblk
      unfold rxQueuePut at hblk
      rcases List.mem_append.mp hblk with h | h
      · exact Or.inl h
      · right
        rw [List.mem_singleton.mp h, List.length_take, hbuf]
        omega
    · rw [if_neg hs] at hblk
      exact Or.inl hblk

theorem read_samples_ignores_count_witness :
    (List.replicate 1024 (0 : ℂ)).length = 1024
    ∧ read_samples 2048 [List.replicate 500 (0 : ℂ)] = (some (List.replicate 500 0), []) :=
  ⟨by rw [List.length_replicate],
   (read_samples_ignores_count 2048 0 [] (List.replicate 500 0) 1
      (List.replicate 1024 0) (by rw [List.length_replicate])).2.1⟩

/-- C5: when the IIR high-pass mode is enabled the pipeline computes,
sample by sample in index order, `y[n] = x[n] - s` and then
`s ← α·s + (1-α)·x[n]`; the state is exactly the fold of that update over
all previously processed samples, it composes across consecutive blocks
(so it persists across blocks and ticks), it is `0` at construction, and
the tick's DC stage dispatches to exactly this loop when only the IIR flag
is set. -/
theorem iir_dc_removal_recurrence (dcAlpha : ℝ) (s : ℂ) (xs ys : List ℂ)
    (history fftSize : ℕ) :
    (∀ n, n < xs.length →
        (iirDcBlock dcAlpha s xs).1.getD n 0
          = xs.getD n 0 - iirState dcAlpha s (xs.take n))
    ∧ (iirDcBlock dcAlpha s xs).2 = iirState dcAlpha s xs
    ∧ iirState dcAlpha s (xs ++ ys) = iirState dcAlpha (iirState dcAlpha s xs) ys
    ∧ (iirDcBlock dcAlpha s (xs ++ ys)).1
        = (iirDcBlock dcAlpha s xs).1
          ++ (iirDcBlock dcAlpha ((iirDcBlock dcAlpha s xs).2) ys).1
    ∧ (spectrogramInit history fftSize).dcState = 0
    ∧ dcStage false true dcAlpha s xs = iirDcBlock dcAlpha s xs := by
  refine ⟨fun n hn => iirDcBlock_fst_getD dcAlpha xs s n hn,
    iirDcBlock_snd dcAlpha xs s, iirState_append dcAlpha s xs ys, ?_, rfl, rfl⟩
  rw [iirDcBlock_snd]
  exact iirDcBlock_append dcAlpha xs ys s

theorem iir_dc_removal_recurrence_witness :
    1 < [(1 : ℂ), 2].length
    ∧ (iirDcBlock (99 / 100 : ℝ) 0 [(1 : ℂ), 2]).1.getD 1 0
        = [(1 : ℂ), 2].getD 1 0 - iirState (99 / 100) 0 ([(1 : ℂ), 2].take 1) :=
  ⟨by simp, (iir_dc_removal_recurrence (99 / 100) 0 [(1 : ℂ), 2] [] 0 0).1 1 (by simp)⟩

/-- C8 counterexample: `mean_subtraction` and `iir_dc_block` are two
independent boolean attributes tested by two sequential `if` statements,
so with both flags set the block-mean subtraction AND the IIR recurrence
are both applied to the same block: on the block `[2, 0]` with
`dc_state = 0` and `dc_alpha = 0.99`, the both-flags result differs from
the pass-through result, from the block-mean-only result and from the
IIR-only result. -/
theorem dc_modes_not_exclusive :
    (dcStage true true (99 / 100) 0 [(2 : ℂ), 0]).1 ≠ [(2 : ℂ), 0]
    ∧ (dcStage true true (99 / 100) 0 [(2 : ℂ), 0]).1
        ≠ (dcStage true false (99 / 100) 0 [(2 : ℂ), 0]).1
    ∧ (dcStage true true (99 / 100) 0 [(2 : ℂ), 0]).1
        ≠ (dcStage false true (99 / 100) 0 [(2 : ℂ), 0]).1 := by
  refine ⟨?_, ?_, ?_⟩ <;>
    · simp only [dcStage, iirDcBlock, meanBlock, List.map_cons, List.map_nil,
        List.sum_cons, List.sum_nil, List.length_cons, List.length_nil]
      norm_num [Complex.ext_iff]

/-- C8 amended: the three DC treatments are dispatched by two independent
boolean flags applied in sequence — no flag means pass-through, only
`mean_subtraction` means block-mean subtraction, only `iir_dc_block`
means the IIR recurrence, and both flags enabled apply the block-mean
subtraction first and then the IIR recurrence to the mean-subtracted
block; exactly one treatment is applied only when at most one flag is
set. -/
theorem dc_flags_sequential (dcAlpha : ℝ) (s : ℂ) (xs : List ℂ) :
    dcStage false false dcAlpha s xs = (xs, s)
    ∧ dcStage true false dcAlpha s xs = (xs.map (fun x => x - meanBlock xs), s)
    ∧ dcStage false true dcAlpha s xs = iirDcBlock dcAlpha s xs
    ∧ dcStage true true dcAlpha s xs
        = iirDcBlock dcAlpha s (xs.map (fun x => x - meanBlock xs)) :=
  ⟨rfl, rfl, rfl, rfl⟩

/-- C2 counterexample: the spectrogram configuration has no decimation
stage (every sample survives), yet a 500-sample block with
`fft_size = 1024` still produces a row — `_compute_power_spectrum`
zero-pads the short block to the transform size instead of skipping the
tick, so the rolling buffer is advanced. -/
theorem spectrogram_short_block_produces_row :
    ((spectrogramTick ⟨1024, 200, false, false, 99 / 100⟩ (spectrogramInit 200 1024)
        [List.replicate 500 0]).2.2).length = 1 := by
  simp only [spectrogramTick, read_samples, List.length_replicate]
  norm_num

/-- C2 amended: the skip-on-underflow policy holds in the CW Doppler
pipeline (the only one with a decimation stage): whenever the decimated
block (`⌈len/D⌉` samples) is shorter than the configured `fft_size`, the
tick produces zero rows and leaves the rolling buffer completely
unchanged. The spectrogram pipeline instead zero-pads any nonempty block. -/
theorem cw_skip_on_underflow (cfg : CwConfig) (data : List (List ℝ)) (b : Block)
    (q : RxQueue) (hD : 1 ≤ cfg.decimation)
    (h : (b.length + cfg.decimation - 1) / cfg.decimation < cfg.fftSize) :
    cwTick cfg data (b :: q) = (data, q, []) := by
  simp only [cwTick, read_samples]
  by_cases hb : b.length = 0
  · rw [if_pos hb]
  · rw [if_neg hb]
    have hmix : (List.zipWith
        (fun (s : ℂ) (tn : ℝ) =>
          s * Complex.exp (-Complex.I * ((2 * π * cfg.cwFreqOffset * tn : ℝ) : ℂ)))
        b ((List.range b.length).map fun n : ℕ => (n : ℝ) / cfg.rawSampleRate)).length
        = b.length := by
      rw [List.length_zipWith, List.length_map, List.length_range, Nat.min_self]
    rw [if_pos (by rw [decimate_length cfg.decimation hD, hmix]; exact h)]

theorem cw_skip_on_underflow_witness :
    1 ≤ 260
    ∧ (500 + 260 - 1) / 260 < 1024
    ∧ cwTick ⟨520834, 0, 1024, 200, 260⟩ [] [List.replicate 500 0, [1]]
        = ([], [[1]], []) := by
  refine ⟨by decide, by decide, ?_⟩
  have h := cw_skip_on_underflow ⟨520834, 0, 1024, 200, 260⟩ [] (List.replicate 500 0)
    [[1]] (by decide) (by rw [List.length_replicate]; decide)
  exact h

/-- C4 counterexample: with two blocks queued, one spectrogram tick
removes only the oldest block and appends only one row — the channel is
not drained and the buffer does not advance by one row per queued block. -/
theorem tick_does_not_drain_all :
    ((spectrogramTick ⟨1024, 200, false, false, 99 / 100⟩ (spectrogramInit 200 1024)
        [[1], [2]]).2.1).length = 1
    ∧ ((spectrogramTick ⟨1024, 200, false, false, 99 / 100⟩ (spectrogramInit 200 1024)
        [[1], [2]]).2.2).length = 1 := by
  constructor <;> simp [spectrogramTick, read_samples]

/-- C4 amended: on every processing tick the consumer performs a single
non-blocking `read_samples` call, which removes at most one block (the
oldest) from the hand-off channel; each tick of either controller
therefore appends at most one row, and any further queued blocks stay
queued for later ticks. -/
theorem tick_consumes_at_most_one (cfg : SpectrogramConfig) (st : SpectrogramState)
    (cw : CwConfig) (data : List (List ℝ)) (q : RxQueue) (n : ℕ) :
    (read_samples n q).2 = q.drop 1
    ∧ (spectrogramTick cfg st q).2.1 = q.drop 1
    ∧ ((spectrogramTick cfg st q).2.2).length ≤ 1
    ∧ (cwTick cw data q).2.1 = q.drop 1
    ∧ ((cwTick cw data q).2.2).length ≤ 1 := by
  rcases q with _ | ⟨b, rest⟩
  · refine ⟨rfl, rfl, ?_, rfl, ?_⟩ <;> simp [spectrogramTick, read_samples, cwTick]
  · refine ⟨rfl, ?_, ?_, ?_, ?_⟩ <;>
      · simp only [spectrogramTick, cwTick, read_samples, List.drop_succ_cons,
          List.drop_zero]
        split_ifs <;> simp

/-- C9: the TX worker's phase accumulator is updated to
`(phase + 2π·f·N·T) mod 2π` after each synthesized block, and consequently
sample `n` of the `k`-th block equals the single phase-continuous tone
`exp(j·2π·f·(k·N + n)·T)` — each block continues the phase of the previous
one across the block boundary. -/
theorem tx_phase_continuity (toneFreq samplePeriod : ℝ) (txSize : ℕ) (k n : ℕ)
    (hn : n < txSize) :
    txPhaseAcc toneFreq samplePeriod txSize (k + 1)
      = pyFmod (txPhaseAcc toneFreq samplePeriod txSize k
          + 2 * π * toneFreq * txSize * samplePeriod) (2 * π)
    ∧ (txWave toneFreq samplePeriod (txPhaseAcc toneFreq samplePeriod txSize k)
        txSize).getD n 0
      = Complex.exp (Complex.I
          * ((2 * π * toneFreq * (((k * txSize + n : ℕ) : ℝ) * samplePeriod)) : ℝ)) := by
  refine ⟨rfl, ?_⟩
  have hw : (txWave toneFreq samplePeriod (txPhaseAcc toneFreq samplePeriod txSize k)
      txSize).getD n 0
      = Complex.exp (Complex.I * ((2 * π * toneFreq * ((n : ℝ) * samplePeriod)
          + txPhaseAcc toneFreq samplePeriod txSize k) : ℝ)) := by
    unfold txWave
    rw [List.getD_eq_get?, List.get?_map, List.get?_range hn]
    rfl
  obtain ⟨m, hm⟩ := txPhaseAcc_mod toneFreq samplePeriod txSize k
  rw [hw, hm, Complex.exp_eq_exp_iff_exists_int]
  refine ⟨-m, ?_⟩
  push_cast
  ring

theorem tx_phase_continuity_witness :
    1 < 2
    ∧ (txWave 1 1 (txPhaseAcc 1 1 2 0) 2).getD 1 0
      = Complex.exp (Complex.I * ((2 * π * 1 * (((0 * 2 + 1 : ℕ) : ℝ) * 1)) : ℝ)) :=
  ⟨by decide, (tx_phase_continuity 1 1 2 0 1 (by decide)).2⟩

end RFApp
